import Mathlib

/-!
Verification of the docparse repository's core logic.

The embedding translates, character by character, the Python functions of
`src/abstract_extractor.py` (`extract_abstract`) and `src/paper_manager.py`
(`PaperManager._extract_title`, `add_paper`, `remove_paper`, `_load_papers`)
into Lean.  Python strings become `String` / `List Char`; `str.strip()`
becomes `strip`; `str.split("\n")` becomes `splitNL`; the two regular
expressions of `abstract_extractor.py` are unfolded to their (finite)
matching conditions; `re.sub(r"\s+", " ", ·)` becomes `collapseAux`.
Whitespace and word characters are modelled over the ASCII range, the only
range exercised by the repository's own documents and tests.
-/

namespace DocParse

/-- The whitespace characters recognised by Python's `str.strip()` and the
regex class `\s` (restricted to ASCII): space, tab, newline, carriage
return, vertical tab, form feed. -/
def pySpace (c : Char) : Bool :=
  c = ' ' || c = '\t' || c = '\n' || c = '\r' || c = '\x0b' || c = '\x0c'

/-- The word characters recognised by the regex class `\w` (restricted to
ASCII): letters, digits and underscore. -/
def isWordChar (c : Char) : Bool :=
  c.isAlphanum || c = '_'

/-- Python `str.lstrip()`: drop leading whitespace. -/
def lstrip (l : List Char) : List Char := l.dropWhile pySpace

/-- Python `str.rstrip()`: drop trailing whitespace. -/
def rstrip (l : List Char) : List Char := (l.reverse.dropWhile pySpace).reverse

/-- Python `str.strip()`: drop leading and trailing whitespace. -/
def strip (l : List Char) : List Char := rstrip (lstrip l)

/-- Case folding used for the `re.IGNORECASE` comparison. -/
def lowerStr (l : List Char) : List Char := l.map Char.toLower

/-- Python `str.split("\n")`: split on every newline, keeping empty pieces
(the result is never the empty list). -/
def splitNL : List Char → List (List Char)
  | [] => [[]]
  | c :: cs =>
    if c = '\n' then [] :: splitNL cs
    else
      match splitNL cs with
      | [] => [[c]]
      | r :: rs => (c :: r) :: rs

/-- The test `re.match(r"^#\x7b1,6\x7d\s*Abstract\s*$", line.strip(), re.IGNORECASE)` from
`abstract_extractor.py` line 31/38: after stripping, a run of 1–6 `#`,
optional whitespace, then exactly the label `Abstract` case-insensitively.
(The trailing `\s*$` is subsumed by the outer `strip`.) -/
def matchesOpening (line : List Char) : Bool :=
  let s := strip line
  let h := (s.takeWhile (· = '#')).length
  let rest := s.dropWhile (· = '#')
  decide (1 ≤ h) && decide (h ≤ 6) &&
    (lowerStr (rest.dropWhile pySpace) = lowerStr "Abstract".toList)

/-- The test `re.match(r"^#\x7b1,6\x7d\s+\w+", line)` from `abstract_extractor.py`
line 51, applied to the already-stripped candidate line: a run of 1–6 `#`,
at least one whitespace character, then a word character. -/
def isTerminator (line : List Char) : Bool :=
  let h := (line.takeWhile (· = '#')).length
  let rest := line.dropWhile (· = '#')
  decide (1 ≤ h) && decide (h ≤ 6) &&
    (match rest.head? with | some c => pySpace c | none => false) &&
    (match (rest.dropWhile pySpace).head? with | some d => isWordChar d | none => false)

/-- The substitution `re.sub` of `\s+` by a single space: replace every maximal run of whitespace by a
single space.  The flag records whether we are inside a run already
replaced. -/
def collapseAux : Bool → List Char → List Char
  | _, [] => []
  | inRun, c :: cs =>
    if pySpace c then
      if inRun then collapseAux true cs else ' ' :: collapseAux true cs
    else c :: collapseAux false cs

/-- The normalization `re.sub` of `\s+` by a single space followed by `.strip()`, from `abstract_extractor.py` line 63. -/
def normalizeWS (l : List Char) : List Char := strip (collapseAux false l)

/-- Python `" ".join(...)`. -/
def joinSp : List (List Char) → List Char
  | [] => []
  | [w] => w
  | w :: ws => w ++ ' ' :: joinSp ws

/-- The lines `markdown_text.split("\n")` (line 33). -/
def linesOf (text : String) : List (List Char) := splitNL text.toList

/-- The loop of lines 37–40: index of the first line whose stripped form
matches the opening pattern. -/
def openIdx (text : String) : Option Nat :=
  (linesOf text).findIdx? matchesOpening

/-- The lines scanned by the loop of lines 47–56: everything after the
opening heading up to (excluding) the first line whose stripped form is a
terminator heading. -/
def scannedOf (text : String) : List (List Char) :=
  match openIdx text with
  | none => []
  | some i => ((linesOf text).drop (i + 1)).takeWhile (fun l => !isTerminator (strip l))

/-- The list `abstract_lines` (lines 46–56): the stripped, non-blank scanned lines. -/
def collectedOf (text : String) : List (List Char) :=
  ((scannedOf text).map strip).filter (fun l => !l.isEmpty)

/-- The function `extract_abstract` from `src/abstract_extractor.py`, lines 26–65. -/
def extract_abstract (text : String) : Option String :=
  if text.toList.isEmpty then none
  else
    match openIdx text with
    | none => none
    | some _ =>
      if (collectedOf text).isEmpty then none
      else some ⟨normalizeWS (joinSp (collectedOf text))⟩

/-- No two adjacent whitespace characters. -/
def noAdj : List Char → Bool
  | [] => true
  | c :: cs =>
    (match cs.head? with | none => true | some d => !(pySpace c && pySpace d)) && noAdj cs

/-- The per-line test of `PaperManager._extract_title` (lines 88–91):
`line.strip().startswith("# ") and len(line.strip()) > 2`, returning
`line.strip()[2:].strip()`. -/
def titleCandidate? (line : List Char) : Option (List Char) :=
  let s := strip line
  if s.take 2 = ['#', ' '] ∧ 2 < s.length then some (strip (s.drop 2)) else none

/-- The method `PaperManager._extract_title` from `src/paper_manager.py`,
lines 77–94. -/
def extractTitle (text fallback : String) : String :=
  match (linesOf text).findSome? titleCandidate? with
  | some t => ⟨t⟩
  | none => fallback

/-- The claim's generic-terminator test, stated from the spec's words: after
trimming, a run of 1–6 marker characters whose remainder is non-empty and
begins with a non-whitespace character. -/
def genericTerminatorClaim (line : List Char) : Bool :=
  let s := strip line
  (List.range 6).any fun j =>
    let k := j + 1
    (s.take k = List.replicate k '#') &&
      (match s.drop k with | [] => false | c :: _ => !pySpace c)

/-- The claim's opening-heading test: after trimming, 1–6 marker characters,
optional whitespace, then text equal to the label `Abstract`
case-insensitively after trimming, and nothing else. -/
def opensClaim (line : List Char) : Prop :=
  ∃ k, 1 ≤ k ∧ k ≤ 6 ∧
    (strip line).take k = List.replicate k '#' ∧
    lowerStr (strip ((strip line).drop k)) = lowerStr "Abstract".toList

/-- The claim's title-line grammar: after trimming, exactly one marker
character, one space, then a non-empty label; the trimmed label is the
title. -/
def titleLineSpec (line : List Char) : Option (List Char) :=
  let s := strip line
  if s.take 2 = ['#', ' '] ∧ ¬(s.drop 2).isEmpty then some (strip (s.drop 2)) else none

/-! ### Infrastructure: `dropWhile`, `strip` -/

theorem dropWhile_head_false {p : Char → Bool} {l : List Char} {c : Char} {t : List Char}
    (h : l.dropWhile p = c :: t) : p c = false := by
  have := List.head?_dropWhile_not p l
  rw [h] at this
  exact this

theorem dropWhile_fix_cons {p : Char → Bool} {c : Char} {t : List Char}
    (h : (c :: t).dropWhile p = c :: t) : p c = false := by
  by_contra hb
  have hp : p c = true := by revert hb; cases p c <;> simp
  rw [List.dropWhile_cons_of_pos hp] at h
  have := congrArg List.length h
  have hle := List.dropWhile_sublist (l := t) (p := p) |>.length_le
  simp at this
  omega

theorem dropWhile_idem (p : Char → Bool) (l : List Char) :
    (l.dropWhile p).dropWhile p = l.dropWhile p := by
  cases h : l.dropWhile p with
  | nil => rfl
  | cons c t => exact List.dropWhile_cons_of_neg (by simp [dropWhile_head_false h])

theorem exists_takeWhile_append (p : Char → Bool) (l : List Char) :
    ∃ pre, l = pre ++ l.dropWhile p ∧ ∀ c ∈ pre, p c = true :=
  ⟨l.takeWhile p, (List.takeWhile_append_dropWhile p l).symm,
    fun _ hc => List.mem_takeWhile_imp hc⟩

theorem lstrip_idem (l : List Char) : lstrip (lstrip l) = lstrip l :=
  dropWhile_idem pySpace l

theorem rstrip_idem (l : List Char) : rstrip (rstrip l) = rstrip l := by
  simp only [rstrip, List.reverse_reverse]
  rw [dropWhile_idem]

/-- Applying `rstrip` keeps an initial segment; the removed tail is all whitespace. -/
theorem exists_rstrip_append (l : List Char) :
    ∃ suf, l = rstrip l ++ suf ∧ ∀ c ∈ suf, pySpace c = true := by
  obtain ⟨pre, hdec, hpre⟩ := exists_takeWhile_append pySpace l.reverse
  refine ⟨pre.reverse, ?_, fun c hc => hpre c (List.mem_reverse.mp hc)⟩
  have : l.reverse.reverse = (pre ++ l.reverse.dropWhile pySpace).reverse := by rw [← hdec]
  simpa [rstrip, List.reverse_append] using this

theorem rstrip_of_suffix {s u : List Char} (hs : rstrip s = s)
    (h : ∃ pre, s = pre ++ u) : rstrip u = u := by
  obtain ⟨pre, rfl⟩ := h
  have hrev : (pre ++ u).reverse.dropWhile pySpace = (pre ++ u).reverse := by
    have := congrArg List.reverse hs
    simpa [rstrip] using this
  rw [List.reverse_append] at hrev
  cases hu : u.reverse with
  | nil =>
    have hunil : u = [] := by simpa using congrArg List.reverse hu
    simp [rstrip, hunil]
  | cons c t =>
    rw [hu] at hrev
    have hc : pySpace c = false := by
      apply dropWhile_fix_cons (t := t ++ pre.reverse)
      simpa using hrev
    show (u.reverse.dropWhile pySpace).reverse = u
    rw [hu, List.dropWhile_cons_of_neg (by simp [hc]), ← hu, List.reverse_reverse]

theorem strip_eq_lstrip_of_rstrip_fix {l : List Char} (h : rstrip l = l) :
    strip l = lstrip l := by
  have hsuf : ∃ pre, l = pre ++ lstrip l := ⟨l.takeWhile pySpace,
    (List.takeWhile_append_dropWhile pySpace l).symm⟩
  exact rstrip_of_suffix h hsuf

theorem rstrip_strip (l : List Char) : rstrip (strip l) = strip l := by
  simp only [strip]
  exact rstrip_idem _

theorem lstrip_ne_space {l : List Char} {c : Char} {t : List Char}
    (h : lstrip l = c :: t) : pySpace c = false :=
  dropWhile_head_false h

theorem lstrip_strip (l : List Char) : lstrip (strip l) = strip l := by
  obtain ⟨suf, hdec, _⟩ := exists_rstrip_append (lstrip l)
  cases hst : strip l with
  | nil => simp [lstrip]
  | cons c t =>
    have hpre : lstrip l = (c :: t) ++ suf := by
      rw [← hst]; simpa [strip] using hdec
    have hc : pySpace c = false :=
      lstrip_ne_space (l := l) (t := t ++ suf) (by simpa using hpre)
    show List.dropWhile pySpace (c :: t) = c :: t
    exact List.dropWhile_cons_of_neg (by simp [hc])

theorem strip_idem (l : List Char) : strip (strip l) = strip l := by
  have h1 : strip (strip l) = rstrip (lstrip (strip l)) := rfl
  rw [h1, lstrip_strip, rstrip_strip]

theorem strip_head_false {l : List Char} {c : Char} {t : List Char}
    (h : strip l = c :: t) : pySpace c = false := by
  have := lstrip_strip l
  rw [h] at this
  exact dropWhile_fix_cons this

theorem mem_of_mem_strip {c : Char} {l : List Char} (h : c ∈ strip l) : c ∈ l := by
  obtain ⟨suf, hdec, _⟩ := exists_rstrip_append (lstrip l)
  obtain ⟨pre, hdec2, _⟩ := exists_takeWhile_append pySpace l
  have h1 : c ∈ lstrip l := by rw [hdec]; exact List.mem_append_left _ h
  rw [hdec2]
  exact List.mem_append_right _ h1

theorem mem_strip_of_nonspace {c : Char} {l : List Char}
    (hc : c ∈ l) (hs : pySpace c = false) : c ∈ strip l := by
  obtain ⟨pre, hdec2, hpre⟩ := exists_takeWhile_append pySpace l
  have h1 : c ∈ lstrip l := by
    rw [hdec2] at hc
    rcases List.mem_append.mp hc with h | h
    · exact absurd (hpre c h) (by simp [hs])
    · exact h
  obtain ⟨suf, hdec, hsuf⟩ := exists_rstrip_append (lstrip l)
  rw [hdec] at h1
  rcases List.mem_append.mp h1 with h | h
  · exact h
  · exact absurd (hsuf c h) (by simp [hs])

theorem strip_ne_nil_of_nonspace {c : Char} {l : List Char}
    (hc : c ∈ l) (hs : pySpace c = false) : strip l ≠ [] := by
  intro hnil
  have := mem_strip_of_nonspace hc hs
  rw [hnil] at this
  exact absurd this (List.not_mem_nil c)

/-! ### Infrastructure: whitespace collapsing -/

theorem collapseAux_space_false {c : Char} {cs : List Char} (h : pySpace c = true) :
    collapseAux false (c :: cs) = ' ' :: collapseAux true cs := by
  simp [collapseAux, h]

theorem collapseAux_space_true {c : Char} {cs : List Char} (h : pySpace c = true) :
    collapseAux true (c :: cs) = collapseAux true cs := by
  simp [collapseAux, h]

theorem collapseAux_nonspace {b : Bool} {c : Char} {cs : List Char} (h : pySpace c = false) :
    collapseAux b (c :: cs) = c :: collapseAux false cs := by
  simp [collapseAux, h]

theorem collapse_mem {b : Bool} {l : List Char} {c : Char}
    (h : c ∈ collapseAux b l) : pySpace c = false ∨ c = ' ' := by
  induction l generalizing b with
  | nil => simp [collapseAux] at h
  | cons d cs ih =>
    cases hd : pySpace d with
    | true =>
      cases b with
      | true => rw [collapseAux_space_true hd] at h; exact ih h
      | false =>
        rw [collapseAux_space_false hd] at h
        rcases List.mem_cons.mp h with rfl | h
        · exact Or.inr rfl
        · exact ih h
    | false =>
      rw [collapseAux_nonspace hd] at h
      rcases List.mem_cons.mp h with rfl | h
      · exact Or.inl hd
      · exact ih h

theorem mem_collapse_of_nonspace {b : Bool} {l : List Char} {c : Char}
    (hc : c ∈ l) (hs : pySpace c = false) : c ∈ collapseAux b l := by
  induction l generalizing b with
  | nil => simp at hc
  | cons d cs ih =>
    rcases List.mem_cons.mp hc with rfl | hc
    · rw [collapseAux_nonspace hs]
      exact List.mem_cons_self _ _
    · cases hd : pySpace d with
      | true =>
        cases b with
        | true => rw [collapseAux_space_true hd]; exact ih hc
        | false => rw [collapseAux_space_false hd]; exact List.mem_cons_of_mem _ (ih hc)
      | false => rw [collapseAux_nonspace hd]; exact List.mem_cons_of_mem _ (ih hc)

theorem collapse_true_head {l : List Char} {c : Char} {t : List Char}
    (h : collapseAux true l = c :: t) : pySpace c = false := by
  induction l generalizing c t with
  | nil => simp [collapseAux] at h
  | cons d cs ih =>
    cases hd : pySpace d with
    | true => rw [collapseAux_space_true hd] at h; exact ih h
    | false =>
      rw [collapseAux_nonspace hd] at h
      obtain ⟨h1, -⟩ := List.cons.inj h
      exact h1 ▸ hd

theorem noAdj_cons_of {c : Char} {t : List Char}
    (h1 : ∀ d, t.head? = some d → (pySpace c && pySpace d) = false)
    (h2 : noAdj t = true) : noAdj (c :: t) = true := by
  simp only [noAdj, Bool.and_eq_true]
  refine ⟨?_, h2⟩
  cases hh : t.head? with
  | none => rfl
  | some d =>
    rw [Bool.not_eq_true']
    exact h1 d hh

theorem noAdj_cons_elim {c : Char} {t : List Char} (h : noAdj (c :: t) = true) :
    (∀ d, t.head? = some d → (pySpace c && pySpace d) = false) ∧ noAdj t = true := by
  simp only [noAdj, Bool.and_eq_true] at h
  refine ⟨fun d hd => ?_, h.2⟩
  have h1 := h.1
  rw [hd] at h1
  rw [Bool.not_eq_true'] at h1
  exact h1

theorem noAdj_collapse (b : Bool) (l : List Char) : noAdj (collapseAux b l) = true := by
  induction l generalizing b with
  | nil => cases b <;> rfl
  | cons d cs ih =>
    cases hd : pySpace d with
    | true =>
      cases b with
      | true => rw [collapseAux_space_true hd]; exact ih true
      | false =>
        rw [collapseAux_space_false hd]
        refine noAdj_cons_of (fun e he => ?_) (ih true)
        cases hcc : collapseAux true cs with
        | nil => rw [hcc] at he; simp at he
        | cons e' u =>
          rw [hcc] at he
          simp only [List.head?_cons, Option.some.injEq] at he
          have := collapse_true_head hcc
          rw [he] at this
          simp [this]
    | false =>
      rw [collapseAux_nonspace hd]
      exact noAdj_cons_of (fun e _ => by simp [hd]) (ih false)

theorem noAdj_tail {c : Char} {t : List Char} (h : noAdj (c :: t) = true) :
    noAdj t = true :=
  (noAdj_cons_elim h).2

theorem noAdj_append_right {l₁ l₂ : List Char} (h : noAdj (l₁ ++ l₂) = true) :
    noAdj l₂ = true := by
  induction l₁ with
  | nil => exact h
  | cons c t ih => exact ih (noAdj_tail h)

theorem noAdj_append_left {l₁ l₂ : List Char} (h : noAdj (l₁ ++ l₂) = true) :
    noAdj l₁ = true := by
  induction l₁ with
  | nil => rfl
  | cons c t ih =>
    rw [List.cons_append] at h
    obtain ⟨h1, h2⟩ := noAdj_cons_elim h
    refine noAdj_cons_of (fun d hd => ?_) (ih h2)
    apply h1
    cases t with
    | nil => exact absurd hd (by simp)
    | cons x xs =>
      rw [List.cons_append]
      simp only [List.head?_cons] at hd ⊢
      exact hd

theorem noAdj_strip {l : List Char} (h : noAdj l = true) : noAdj (strip l) = true := by
  obtain ⟨pre, hdec, -⟩ := exists_takeWhile_append pySpace l
  have h1 : noAdj (lstrip l) = true := noAdj_append_right (hdec ▸ h)
  obtain ⟨suf, hdec2, -⟩ := exists_rstrip_append (lstrip l)
  exact noAdj_append_left (hdec2 ▸ h1)

theorem collapse_fix {l : List Char}
    (hb : ∀ c ∈ l, pySpace c = false ∨ c = ' ') (hn : noAdj l = true) :
    collapseAux false l = l ∧
      ((match l.head? with | some c => pySpace c = false | none => True) →
        collapseAux true l = l) := by
  induction l with
  | nil => exact ⟨rfl, fun _ => rfl⟩
  | cons c cs ih =>
    have hbcs : ∀ d ∈ cs, pySpace d = false ∨ d = ' ' :=
      fun d hd => hb d (List.mem_cons_of_mem _ hd)
    obtain ⟨hpair, htail⟩ := noAdj_cons_elim hn
    obtain ⟨ih1, ih2⟩ := ih hbcs htail
    cases hc : pySpace c with
    | true =>
      have hc' : c = ' ' := by
        rcases hb c (List.mem_cons_self c cs) with h | h
        · rw [hc] at h; cases h
        · exact h
      have hhead : match cs.head? with | some d => pySpace d = false | none => True := by
        cases hcs : cs with
        | nil => exact trivial
        | cons d u =>
          have := hpair d (by rw [hcs]; rfl)
          rw [hc] at this
          simpa using this
      constructor
      · rw [collapseAux_space_false hc, ih2 hhead, hc']
      · intro hcontra
        simp only [List.head?_cons] at hcontra
        rw [hc] at hcontra; cases hcontra
    | false =>
      constructor
      · rw [collapseAux_nonspace hc, ih1]
      · intro _
        rw [collapseAux_nonspace hc, ih1]

theorem normalizeWS_idem (l : List Char) : normalizeWS (normalizeWS l) = normalizeWS l := by
  set z := strip (collapseAux false l) with hz
  have hb : ∀ c ∈ z, pySpace c = false ∨ c = ' ' :=
    fun c hc => collapse_mem (mem_of_mem_strip hc)
  have hn : noAdj z = true := noAdj_strip (noAdj_collapse false l)
  show strip (collapseAux false z) = z
  rw [(collapse_fix hb hn).1, hz, strip_idem]

theorem normalizeWS_ne_nil {l : List Char} {c : Char}
    (hc : c ∈ l) (hs : pySpace c = false) : normalizeWS l ≠ [] :=
  strip_ne_nil_of_nonspace (mem_collapse_of_nonspace hc hs) hs

/-! ### Infrastructure: search helpers -/

theorem findIdx?_some_exists {p : List Char → Bool} {l : List (List Char)} {i j : Nat}
    (h : l.findIdx? p j = some i) : ∃ x ∈ l, p x = true := by
  induction l generalizing j with
  | nil => simp [List.findIdx?] at h
  | cons a t ih =>
    rw [List.findIdx?_cons] at h
    by_cases ha : p a = true
    · exact ⟨a, List.mem_cons_self a t, ha⟩
    · rw [if_neg ha] at h
      obtain ⟨x, hx, hpx⟩ := ih h
      exact ⟨x, List.mem_cons_of_mem _ hx, hpx⟩

theorem mem_joinSp_head {w : List Char} {ws : List (List Char)} {c : Char}
    (h : c ∈ w) : c ∈ joinSp (w :: ws) := by
  cases ws with
  | nil => exact h
  | cons w' ws' => exact List.mem_append_left _ h

/-! ### The paper collection (`src/paper_manager.py`) -/

/-- A paper record (`paper_manager.py` lines 62–69). -/
structure Paper where
  id : Nat
  url : String
  title : String
  abstract : String
  added_date : String
  markdown : String
  deriving DecidableEq

/-- The mutable state of a `PaperManager`: its `papers` list and `next_id`
counter (lines 23–24). -/
structure PMState where
  papers : List Paper
  next_id : Nat
  deriving DecidableEq

/-- The state after `__init__` when no storage file exists (lines 23–24). -/
def initialState : PMState := ⟨[], 1⟩

/-- The method `add_paper` (lines 41–75), with the document-conversion result
(`converter.convert(url)` followed by `export_to_markdown()`) and the
`datetime.now()` stamp supplied as inputs.  Returns the new state and the
created record. -/
def add_paper (st : PMState) (url markdown now : String) : PMState × Paper :=
  let title := extractTitle markdown url
  let abs := (extract_abstract markdown).getD "No abstract found"
  let paper : Paper := ⟨st.next_id, url, title, abs, now, markdown⟩
  (⟨st.papers ++ [paper], st.next_id + 1⟩, paper)

/-- The method `remove_paper` (lines 113–128): filter out the matching id; report
whether anything was removed. -/
def remove_paper (st : PMState) (paper_id : Nat) : PMState × Bool :=
  let remaining := st.papers.filter (fun p => p.id ≠ paper_id)
  if remaining.length < st.papers.length then (⟨remaining, st.next_id⟩, true)
  else (st, false)

/-- One user-level operation on the collection.  For `add`, the conversion
result and timestamp are part of the operation. -/
inductive Op where
  | add (url markdown now : String)
  | remove (paper_id : Nat)

/-- Run a sequence of operations from a state. -/
def runFrom (st : PMState) : List Op → PMState
  | [] => st
  | Op.add u m n :: ops => runFrom (add_paper st u m n).1 ops
  | Op.remove i :: ops => runFrom (remove_paper st i).1 ops

/-- The ids assigned by the `add` operations of a run, in order. -/
def assignedFrom (st : PMState) : List Op → List Nat
  | [] => []
  | Op.add u m n :: ops => (add_paper st u m n).2.id :: assignedFrom (add_paper st u m n).1 ops
  | Op.remove i :: ops => assignedFrom (remove_paper st i).1 ops

/-- The method `_load_papers` (lines 28–34).  The file system and JSON parser are
supplied as an input: `none` when the storage file does not exist,
`some (.error e)` when `json.load` raises (message `e`), `some (.ok d)`
when it returns a dict with optional `papers` and `next_id` keys.  The
method has no exception handler, so a parse error propagates. -/
def load_papers (stored : Option (Except String (Option (List Paper) × Option Nat))) :
    Except String PMState :=
  match stored with
  | none => Except.ok initialState
  | some (Except.error e) => Except.error e
  | some (Except.ok (ps, nid)) => Except.ok ⟨ps.getD [], nid.getD 1⟩

/-- The outcome of one `add_paper` call including its fallible
document-conversion step (line 54) and whether `_save_papers` ran
(line 73). -/
structure AddOutcome where
  state : PMState
  result : Except String Paper
  persisted : Bool

/-- The method `add_paper` with its conversion step made explicit: lines 53–55 run
first; if `converter.convert` raises, the method aborts before lines
62–73, so the state is the entry state and nothing is saved. -/
def add_paper_run (st : PMState) (url : String) (conv : Except String String)
    (now : String) : AddOutcome :=
  match conv with
  | Except.error e => ⟨st, Except.error e, false⟩
  | Except.ok markdown =>
    let res := add_paper st url markdown now
    ⟨res.1, Except.ok res.2, true⟩

/-! ### Infrastructure: character facts -/

theorem space_ne_hash {c : Char} (h : pySpace c = true) : c ≠ '#' := by
  intro hc
  subst hc
  exact absurd h (by decide)

theorem wordChar_not_space {d : Char} (h : isWordChar d = true) : pySpace d = false := by
  by_contra hb
  have hs : pySpace d = true := by revert hb; cases pySpace d <;> simp
  simp only [pySpace, Bool.or_eq_true, decide_eq_true_eq] at hs
  rcases hs with ((((rfl | rfl) | rfl) | rfl) | rfl) | rfl <;>
    exact absurd h (by decide)

theorem rstrip_fix_exists_nonspace {l : List Char} (h : rstrip l = l) (hne : l ≠ []) :
    ∃ c ∈ l, pySpace c = false := by
  by_contra hcon
  push_neg at hcon
  have hall : ∀ c ∈ l.reverse, pySpace c = true := by
    intro c hc
    have := hcon c (List.mem_reverse.mp hc)
    revert this; cases pySpace c <;> simp
  have hnil : l.reverse.dropWhile pySpace = [] := List.dropWhile_eq_nil_iff.mpr hall
  have : rstrip l = [] := by simp [rstrip, hnil]
  rw [h] at this
  exact hne this

theorem strip_suffix_eq_lstrip {l u : List Char} (h : ∃ pre, strip l = pre ++ u) :
    strip u = lstrip u :=
  strip_eq_lstrip_of_rstrip_fix (rstrip_of_suffix (rstrip_strip l) h)

/-! ### The claims -/

/-- C3: for the text `"# T\n\n## Abstract\n\nA.\nB.\n\n## Intro\n\nC."`,
`extract_abstract` returns exactly `"A. B."`: the two content lines between
the Abstract heading and the next heading are kept, the blank lines are
discarded, and the kept lines are joined with a single space. -/
theorem extract_example_joins_lines :
    extract_abstract "# T\n\n## Abstract\n\nA.\nB.\n\n## Intro\n\nC." = some "A. B." := by
  decide

/-- C5: a line consisting only of marker characters is not a terminator
(the closing test demands whitespace and then a word character after the
run), and such a non-blank line inside the section is collected verbatim,
so its markers appear inside the returned abstract. -/
theorem marker_only_line_not_terminator :
    (∀ n : Nat, isTerminator (List.replicate n '#') = false) ∧
      extract_abstract "## Abstract\nfoo\n##\nbar\n## Intro x" = some "foo ## bar" := by
  constructor
  · intro n
    have h : (List.replicate n '#').dropWhile (· = '#') = [] := by
      induction n with
      | zero => rfl
      | succ k ih =>
        rw [List.replicate_succ, List.dropWhile_cons_of_pos (by simp)]
        exact ih
    simp [isTerminator, h]
  · decide

/-- C9 (the code contradicts the claim and its own test
`test_initialization_handles_corrupted_json`): `_load_papers` has no
exception handler, so an unparseable storage file propagates the
`json.load` error instead of resetting to the empty collection; only a
missing file yields the empty collection with `next_id = 1`. -/
theorem load_papers_error_propagates :
    load_papers (some (Except.error "Expecting property name: line 1 column 3 (char 2)")) =
        Except.error "Expecting property name: line 1 column 3 (char 2)" ∧
      load_papers none = Except.ok initialState :=
  ⟨rfl, rfl⟩

/-- C10: if the document-conversion step raises, `add_paper` leaves the
collection completely unchanged — the papers list and `next_id` are those
of the entry state, nothing is persisted, and the error is what surfaces —
because conversion runs before any mutation. -/
theorem add_paper_conv_failure_no_mutation :
    ∀ (st : PMState) (url now e : String),
      (add_paper_run st url (Except.error e) now).state.papers = st.papers ∧
        (add_paper_run st url (Except.error e) now).state.next_id = st.next_id ∧
        (add_paper_run st url (Except.error e) now).persisted = false ∧
        (add_paper_run st url (Except.error e) now).result = Except.error e :=
  fun _ _ _ _ => ⟨rfl, rfl, rfl, rfl⟩

/-- C6 as stated is false: the value returned for `"## Abstract\nA."` is
`"A."`, but running `extract_abstract` on `"A."` itself returns `none`
(the output contains no Abstract heading), not the string again. -/
theorem extract_not_idempotent_on_output :
    extract_abstract "## Abstract\nA." = some "A." ∧ extract_abstract "A." = none := by
  decide

/-- C6 (amended): `extract_abstract` collapses irregular internal spacing
(`"a    b"` becomes `"a b"`), and every returned string is already
whitespace-normalized — applying the collapse-and-trim normalization to a
returned value is a no-op. -/
theorem extract_output_normalized :
    extract_abstract "## Abstract\na    b" = some "a b" ∧
      ∀ t s : String, extract_abstract t = some s → normalizeWS s.toList = s.toList := by
  refine ⟨by decide, fun t s h => ?_⟩
  unfold extract_abstract at h
  split at h
  · cases h
  · split at h
    · cases h
    · split at h
      · cases h
      · have hs : (⟨normalizeWS (joinSp (collectedOf t))⟩ : String) = s := by
          injection h
        rw [← hs]
        show normalizeWS (normalizeWS (joinSp (collectedOf t))) =
          normalizeWS (joinSp (collectedOf t))
        exact normalizeWS_idem _

/-- Witness for the amended C6 at the concrete document `"## Abstract\nA."`,
whose extracted abstract is `"A."`. -/
theorem extract_output_normalized_witness :
    normalizeWS ("A.".toList) = "A.".toList :=
  extract_output_normalized.2 "## Abstract\nA." "A." (by decide)

/-- C1 as stated is false at the line `"##Intro"`: it satisfies the claim's
generic-terminator condition (marker run with a non-empty remainder that
begins with a non-whitespace character), yet the code's closing test —
which demands whitespace and then a word character after the run — rejects
it, so scanning continues past it and the line is swallowed into the
abstract body instead of terminating the section. -/
theorem generic_terminator_claim_false :
    genericTerminatorClaim ("##Intro".toList) = true ∧
      isTerminator (strip ("##Intro".toList)) = false ∧
      extract_abstract "## Abstract\nA.\n##Intro\nB." = some "A. ##Intro B." :=
  ⟨by decide, by decide, by decide⟩

/-- C1 (amended): once the opening heading has been found, a subsequent line
terminates the collected section exactly when, after trimming, it has a run
of 1–6 marker characters followed by at least one whitespace character and
then a word character (letter, digit or underscore); a heading with no
whitespace between the markers and its text, or whose text begins with a
non-word character, does not terminate the section. -/
theorem terminator_characterization (line : List Char) :
    isTerminator (strip line) = true ↔
      ∃ k ws1 d rest, 1 ≤ k ∧ k ≤ 6 ∧
        strip line = List.replicate k '#' ++ ws1 ++ d :: rest ∧
        ws1 ≠ [] ∧ (∀ c ∈ ws1, pySpace c = true) ∧ isWordChar d = true := by
  constructor
  · intro h
    simp only [isTerminator, Bool.and_eq_true, decide_eq_true_eq] at h
    obtain ⟨⟨⟨h1, h6⟩, hws⟩, hwd⟩ := h
    cases hrest : (strip line).dropWhile (· = '#') with
    | nil => rw [hrest] at hws; simp at hws
    | cons c rest0 =>
      rw [hrest] at hws hwd
      simp only [List.head?_cons] at hws
      cases hdw : (c :: rest0).dropWhile pySpace with
      | nil => rw [hdw] at hwd; simp at hwd
      | cons d rest1 =>
        rw [hdw] at hwd
        simp only [List.head?_cons] at hwd
        refine ⟨((strip line).takeWhile (· = '#')).length, (c :: rest0).takeWhile pySpace,
          d, rest1, h1, h6, ?_, ?_, fun x hx => List.mem_takeWhile_imp hx, hwd⟩
        · have hdecomp : strip line =
              (strip line).takeWhile (· = '#') ++ (strip line).dropWhile (· = '#') :=
            (List.takeWhile_append_dropWhile _ _).symm
          have htw : (strip line).takeWhile (· = '#') =
              List.replicate ((strip line).takeWhile (· = '#')).length '#' :=
            List.eq_replicate_iff.mpr
              ⟨rfl, fun b hb => by simpa using List.mem_takeWhile_imp hb⟩
          conv_lhs => rw [hdecomp, htw, hrest]
          rw [List.append_assoc]
          congr 1
          rw [← hdw]
          exact (List.takeWhile_append_dropWhile pySpace (c :: rest0)).symm
        · rw [List.takeWhile_cons_of_pos hws]
          simp
  · rintro ⟨k, ws1, d, rest, hk1, hk6, hsplit, hne, hall, hword⟩
    cases ws1 with
    | nil => exact absurd rfl hne
    | cons c ws' =>
      have hcws : pySpace c = true := hall c (List.mem_cons_self _ _)
      have hch : c ≠ '#' := space_ne_hash hcws
      have hhash : ∀ a ∈ List.replicate k '#', (fun x => decide (x = '#')) a = true := by
        intro a ha
        simpa using List.eq_of_mem_replicate ha
      have htw : (strip line).takeWhile (· = '#') = List.replicate k '#' := by
        rw [hsplit, List.append_assoc, List.takeWhile_append_of_pos hhash,
          List.cons_append,
          List.takeWhile_cons_of_neg (p := fun x => decide (x = '#')) (a := c)
            (l := ws' ++ d :: rest) (by simpa using hch),
          List.append_nil]
      have hdw : (strip line).dropWhile (· = '#') = (c :: ws') ++ d :: rest := by
        rw [hsplit, List.append_assoc, List.dropWhile_append_of_pos hhash,
          List.cons_append,
          List.dropWhile_cons_of_neg (p := fun x => decide (x = '#')) (a := c)
            (l := ws' ++ d :: rest) (by simpa using hch)]
      have hdw2 : ((c :: ws') ++ d :: rest).dropWhile pySpace = d :: rest := by
        rw [List.dropWhile_append_of_pos hall]
        exact List.dropWhile_cons_of_neg (by simp [wordChar_not_space hword])
      simp only [isTerminator, Bool.and_eq_true, decide_eq_true_eq]
      refine ⟨⟨⟨?_, ?_⟩, ?_⟩, ?_⟩
      · rw [htw, List.length_replicate]; exact hk1
      · rw [htw, List.length_replicate]; exact hk6
      · rw [hdw]; simpa using hcws
      · rw [hdw, hdw2]; simpa using hword

/-- C4: a line opens the target section exactly when, after trimming, it
consists of 1–6 marker characters, optional whitespace, then text equal
(case-insensitively, after trimming) to the label `Abstract` and nothing
else; case and spacing variants open the section, while a line containing
the label only as a proper substring does not. -/
theorem opening_characterization :
    (∀ line : List Char, matchesOpening line = true ↔ opensClaim line) ∧
      matchesOpening ("## ABSTRACT".toList) = true ∧
      matchesOpening ("##  Abstract ".toList) = true ∧
      matchesOpening ("# aBsTrAcT".toList) = true ∧
      matchesOpening ("## Abstract and Introduction".toList) = false := by
  refine ⟨fun line => ⟨fun h => ?_, fun h => ?_⟩, by decide, by decide, by decide, by decide⟩
  · simp only [matchesOpening, Bool.and_eq_true, decide_eq_true_eq] at h
    obtain ⟨⟨h1, h6⟩, heq⟩ := h
    refine ⟨((strip line).takeWhile (· = '#')).length, h1, h6, ?_, ?_⟩
    · have htw : (strip line).takeWhile (· = '#') =
          List.replicate ((strip line).takeWhile (· = '#')).length '#' :=
        List.eq_replicate_iff.mpr
          ⟨rfl, fun b hb => by simpa using List.mem_takeWhile_imp hb⟩
      have htk := List.take_left ((strip line).takeWhile (· = '#'))
        ((strip line).dropWhile (· = '#'))
      rw [List.takeWhile_append_dropWhile] at htk
      rw [htk]
      exact htw
    · have hdrop : (strip line).drop ((strip line).takeWhile (· = '#')).length =
          (strip line).dropWhile (· = '#') := by
        have := List.drop_left ((strip line).takeWhile (· = '#'))
          ((strip line).dropWhile (· = '#'))
        rw [List.takeWhile_append_dropWhile] at this
        exact this
      rw [hdrop]
      have hsfx : strip ((strip line).dropWhile (· = '#')) =
          lstrip ((strip line).dropWhile (· = '#')) :=
        strip_suffix_eq_lstrip ⟨(strip line).takeWhile (· = '#'),
          (List.takeWhile_append_dropWhile _ _).symm⟩
      rw [hsfx]
      exact heq
  · obtain ⟨k, hk1, hk6, htake, heq⟩ := h
    have hsplit : strip line = List.replicate k '#' ++ (strip line).drop k := by
      conv_lhs => rw [← List.take_append_drop k (strip line)]
      rw [htake]
    have hsfx : strip ((strip line).drop k) = lstrip ((strip line).drop k) :=
      strip_suffix_eq_lstrip ⟨List.replicate k '#', hsplit⟩
    rw [hsfx] at heq
    cases he : lstrip ((strip line).drop k) with
    | nil =>
      rw [he] at heq
      exact absurd heq (by decide)
    | cons e es =>
      rw [he] at heq
      have hte : Char.toLower e = 'a' := by
        have h2 := congrArg List.head? heq
        have hR : (lowerStr "Abstract".toList).head? = some 'a' := by decide
        rw [hR] at h2
        simpa [lowerStr] using h2
      have hee : e ≠ '#' := by
        intro hcontra
        subst hcontra
        exact absurd hte (by decide)
      have hens : pySpace e = false := lstrip_ne_space he
      obtain ⟨wsPre, hdk, hwsPre⟩ := exists_takeWhile_append pySpace ((strip line).drop k)
      rw [show List.dropWhile pySpace ((strip line).drop k) = e :: es from he] at hdk
      have hrep : ∀ a ∈ List.replicate k '#', (fun x => decide (x = '#')) a = true :=
        fun a ha => by simpa using List.eq_of_mem_replicate ha
      have hheadne : ∀ x, (wsPre ++ e :: es).head? = some x → x ≠ '#' := by
        intro x hx
        cases wsPre with
        | nil =>
          simp only [List.nil_append, List.head?_cons, Option.some.injEq] at hx
          exact hx ▸ hee
        | cons w ws2 =>
          simp only [List.cons_append, List.head?_cons, Option.some.injEq] at hx
          exact hx ▸ space_ne_hash (hwsPre w (List.mem_cons_self _ _))
      have htwtail : List.takeWhile (fun x => decide (x = '#')) (wsPre ++ e :: es) = [] := by
        cases hcase : wsPre ++ e :: es with
        | nil => rfl
        | cons x xs =>
          exact List.takeWhile_cons_of_neg
            (by simpa using hheadne x (by rw [hcase]; rfl))
      have hdwtail : List.dropWhile (fun x => decide (x = '#')) (wsPre ++ e :: es) =
          wsPre ++ e :: es := by
        cases hcase : wsPre ++ e :: es with
        | nil => rfl
        | cons x xs =>
          exact List.dropWhile_cons_of_neg
            (by simpa using hheadne x (by rw [hcase]; rfl))
      have htw : (strip line).takeWhile (· = '#') = List.replicate k '#' := by
        conv_lhs => rw [hsplit, hdk]
        rw [List.takeWhile_append_of_pos hrep, htwtail, List.append_nil]
      have hdw : (strip line).dropWhile (· = '#') = wsPre ++ e :: es := by
        conv_lhs => rw [hsplit, hdk]
        rw [List.dropWhile_append_of_pos hrep, hdwtail]
      simp only [matchesOpening, Bool.and_eq_true, decide_eq_true_eq]
      refine ⟨⟨?_, ?_⟩, ?_⟩
      · rw [htw, List.length_replicate]; exact hk1
      · rw [htw, List.length_replicate]; exact hk6
      · rw [hdw, List.dropWhile_append_of_pos hwsPre,
          List.dropWhile_cons_of_neg (by simp [hens])]
        exact heq

theorem titleCandidate?_eq_titleLineSpec (line : List Char) :
    titleCandidate? line = titleLineSpec line := by
  have hiff : (2 < (strip line).length) ↔ ¬((strip line).drop 2).isEmpty = true := by
    rw [List.isEmpty_iff, List.drop_eq_nil_iff]
    omega
  unfold titleCandidate? titleLineSpec
  by_cases h : (strip line).take 2 = ['#', ' '] ∧ 2 < (strip line).length
  · rw [if_pos h, if_pos ⟨h.1, hiff.mp h.2⟩]
  · rw [if_neg h, if_neg fun hc => h ⟨hc.1, hiff.mpr hc.2⟩]

/-- C7: `extractTitle` returns the trimmed label of the first line that,
after trimming, is a level-1 heading — exactly one marker character, one
space, then a non-empty label; a line whose trimmed form begins with two or
more markers is never a candidate; when no candidate exists the fallback
string comes back verbatim, so the result is non-empty whenever the
fallback is non-empty. -/
theorem title_extraction_correct :
    ∀ text fallback : String,
      (extractTitle text fallback =
        match (linesOf text).findSome? titleLineSpec with
        | some t => String.mk t
        | none => fallback) ∧
      (∀ line : List Char, 2 ≤ ((strip line).takeWhile (· = '#')).length →
        titleLineSpec line = none) ∧
      (fallback ≠ "" → extractTitle text fallback ≠ "") := by
  intro text fallback
  have hfun : titleCandidate? = titleLineSpec := funext titleCandidate?_eq_titleLineSpec
  refine ⟨?_, ?_, ?_⟩
  · unfold extractTitle
    rw [hfun]
  · intro line hlen
    have htw : (strip line).takeWhile (· = '#') =
        List.replicate ((strip line).takeWhile (· = '#')).length '#' :=
      List.eq_replicate_iff.mpr
        ⟨rfl, fun b hb => by simpa using List.mem_takeWhile_imp hb⟩
    have htk2 : (strip line).take 2 = ['#', '#'] := by
      conv_lhs => rw [← List.takeWhile_append_dropWhile (· = '#') (strip line)]
      rw [List.take_append_of_le_length hlen, htw, List.take_replicate,
        min_eq_left hlen]
      rfl
    have hcond : ¬((strip line).take 2 = ['#', ' '] ∧
        ¬((strip line).drop 2).isEmpty = true) := by
      intro hc
      have := hc.1
      rw [htk2] at this
      exact absurd this (by decide)
    unfold titleLineSpec
    rw [if_neg hcond]
  · intro hfb
    unfold extractTitle
    cases hfs : (linesOf text).findSome? titleCandidate? with
    | none => exact hfb
    | some t =>
      obtain ⟨line, -, hline⟩ := List.exists_of_findSome?_eq_some hfs
      unfold titleCandidate? at hline
      by_cases hcond : (strip line).take 2 = ['#', ' '] ∧ 2 < (strip line).length
      case neg => rw [if_neg hcond] at hline; cases hline
      case pos =>
        rw [if_pos hcond] at hline
        obtain ⟨ht2, hlen⟩ := hcond
        have ht : t = strip ((strip line).drop 2) := (Option.some.inj hline).symm
        have hsplit : strip line = ['#', ' '] ++ (strip line).drop 2 := by
          conv_lhs => rw [← List.take_append_drop 2 (strip line)]
          rw [ht2]
        have hdne : (strip line).drop 2 ≠ [] := by
          intro hnil
          have := List.drop_eq_nil_iff.mp hnil
          omega
        have hrs : rstrip ((strip line).drop 2) = (strip line).drop 2 :=
          rstrip_of_suffix (rstrip_strip line) ⟨['#', ' '], hsplit⟩
        obtain ⟨c, hcmem, hcns⟩ := rstrip_fix_exists_nonspace hrs hdne
        intro hcontra
        have htnil : t = [] := by
          have h3 := congrArg String.data hcontra
          simpa using h3
        rw [ht] at htnil
        exact strip_ne_nil_of_nonspace hcmem hcns htnil

/-- Witness for C7: a two-marker line is not a candidate under the claim's
grammar, and a fallback-returning call yields a non-empty title. -/
theorem title_extraction_correct_witness :
    titleLineSpec ("## Two".toList) = none ∧ extractTitle "x" "u" ≠ "" :=
  ⟨(title_extraction_correct "x" "u").2.1 ("## Two".toList) (by decide),
    (title_extraction_correct "x" "u").2.2 (by decide)⟩

theorem remove_paper_next_id (st : PMState) (pid : Nat) :
    (remove_paper st pid).1.next_id = st.next_id := by
  simp only [remove_paper]
  split <;> rfl

theorem remove_paper_papers_sub {st : PMState} {pid : Nat} {p : Paper}
    (h : p ∈ (remove_paper st pid).1.papers) : p ∈ st.papers := by
  simp only [remove_paper] at h
  split at h
  · exact (List.mem_filter.mp h).1
  · exact h

theorem runFrom_invariant (ops : List Op) (st : PMState)
    (hpap : ∀ p ∈ st.papers, p.id < st.next_id) :
    st.next_id ≤ (runFrom st ops).next_id ∧
      (∀ i ∈ assignedFrom st ops, st.next_id ≤ i ∧ i < (runFrom st ops).next_id) ∧
      List.Pairwise (· < ·) (assignedFrom st ops) ∧
      (∀ p ∈ (runFrom st ops).papers, p.id < (runFrom st ops).next_id) := by
  induction ops generalizing st with
  | nil =>
    refine ⟨le_refl _, ?_, List.Pairwise.nil, hpap⟩
    intro i hi
    simp [assignedFrom] at hi
  | cons op ops ih =>
    cases op with
    | add u m n =>
      have hpap' : ∀ p ∈ (add_paper st u m n).1.papers,
          p.id < (add_paper st u m n).1.next_id := by
        intro p hp
        simp only [add_paper] at hp ⊢
        rcases List.mem_append.mp hp with h | h
        · exact Nat.lt_succ_of_lt (hpap p h)
        · rw [List.mem_singleton.mp h]
          exact Nat.lt_succ_self _
      obtain ⟨h1, h2, h3, h4⟩ := ih (add_paper st u m n).1 hpap'
      have hnext : (add_paper st u m n).1.next_id = st.next_id + 1 := rfl
      have hid : (add_paper st u m n).2.id = st.next_id := rfl
      rw [hnext] at h1
      refine ⟨?_, ?_, ?_, h4⟩
      · show st.next_id ≤ (runFrom (add_paper st u m n).1 ops).next_id
        omega
      · intro i hi
        simp only [assignedFrom] at hi
        show st.next_id ≤ i ∧ i < (runFrom (add_paper st u m n).1 ops).next_id
        rcases List.mem_cons.mp hi with rfl | hi
        · rw [hid]
          exact ⟨le_refl _, by omega⟩
        · have := h2 i hi
          rw [hnext] at this
          exact ⟨by omega, this.2⟩
      · show List.Pairwise (· < ·)
          ((add_paper st u m n).2.id :: assignedFrom (add_paper st u m n).1 ops)
        rw [List.pairwise_cons]
        refine ⟨fun j hj => ?_, h3⟩
        have hj2 := (h2 j hj).1
        rw [hnext] at hj2
        rw [hid]
        omega
    | remove pid =>
      have hpap' : ∀ p ∈ (remove_paper st pid).1.papers,
          p.id < (remove_paper st pid).1.next_id := by
        intro p hp
        rw [remove_paper_next_id]
        exact hpap p (remove_paper_papers_sub hp)
      obtain ⟨h1, h2, h3, h4⟩ := ih (remove_paper st pid).1 hpap'
      have hnext := remove_paper_next_id st pid
      rw [hnext] at h1
      refine ⟨h1, ?_, h3, h4⟩
      intro i hi
      have := h2 i hi
      rw [hnext] at this
      exact this

/-- C8: over every operation sequence from the fresh state (`next_id = 1`),
each add assigns the current `next_id` and increments it, removals never
change `next_id`, the assigned ids are strictly increasing — so an id is
never reused even when removals are interleaved — and `next_id` stays
strictly greater than every id ever assigned and every id still stored. -/
theorem next_id_invariant :
    ∀ ops : List Op,
      List.Pairwise (· < ·) (assignedFrom initialState ops) ∧
        (∀ i ∈ assignedFrom initialState ops, i < (runFrom initialState ops).next_id) ∧
        (∀ p ∈ (runFrom initialState ops).papers,
          p.id < (runFrom initialState ops).next_id) ∧
        (∀ (st : PMState) (url markdown now : String),
          (add_paper st url markdown now).2.id = st.next_id ∧
            (add_paper st url markdown now).1.next_id = st.next_id + 1) ∧
        (∀ (st : PMState) (pid : Nat), (remove_paper st pid).1.next_id = st.next_id) := by
  intro ops
  obtain ⟨-, hmem, hpw, hpap⟩ :=
    runFrom_invariant ops initialState (by intro p hp; simp [initialState] at hp)
  exact ⟨hpw, fun i hi => (hmem i hi).2, hpap,
    fun st u m n => ⟨rfl, rfl⟩, remove_paper_next_id⟩

/-- Witness for C8 on the run add, remove id 1, add: the second assigned id
is 2 and stays below the final `next_id`. -/
theorem next_id_invariant_witness :
    (2 : Nat) < (runFrom initialState
      [Op.add "u1" "# A" "d1", Op.remove 1, Op.add "u2" "# B" "d2"]).next_id :=
  (next_id_invariant [Op.add "u1" "# A" "d1", Op.remove 1, Op.add "u2" "# B" "d2"]).2.1
    2 (by decide)

/-- C2: `extract_abstract` returns `none` exactly when no line passes the
opening-heading test (which covers empty input, whose single line is no
heading) or when every line scanned between the opening heading and the
terminating boundary is blank after trimming; in every other case it
returns the normalized single-line string, which is never empty.  The
model is a total function, mirroring that the Python function raises no
exception on any string input. -/
theorem extract_none_iff (t : String) :
    (extract_abstract t = none ↔
      (∀ l ∈ linesOf t, matchesOpening l = false) ∨
        (∀ l ∈ scannedOf t, strip l = [])) ∧
    (∀ s, extract_abstract t = some s → s ≠ "") := by
  have factA : ((collectedOf t).isEmpty = true) ↔ (∀ l ∈ scannedOf t, strip l = []) := by
    rw [List.isEmpty_iff]
    unfold collectedOf
    rw [List.filter_eq_nil_iff]
    constructor
    · intro h l hl
      have := h (strip l) (List.mem_map.mpr ⟨l, hl, rfl⟩)
      simpa [List.isEmpty_iff] using this
    · intro h a ha
      obtain ⟨l, hl, rfl⟩ := List.mem_map.mp ha
      simp [List.isEmpty_iff, h l hl]
  have factB : openIdx t = none ↔ ∀ l ∈ linesOf t, matchesOpening l = false := by
    unfold openIdx
    exact List.findIdx?_eq_none_iff
  have factE : t.toList.isEmpty = true → ∀ l ∈ linesOf t, matchesOpening l = false := by
    intro he l hl
    rw [List.isEmpty_iff] at he
    unfold linesOf at hl
    rw [he] at hl
    have hnil : l = [] := by simpa [splitNL] using hl
    rw [hnil]
    decide
  constructor
  · constructor
    · intro h
      unfold extract_abstract at h
      split at h
      · rename_i he
        exact Or.inl (factE he)
      · split at h
        · rename_i ho
          exact Or.inl (factB.mp ho)
        · split at h
          · rename_i hc
            exact Or.inr (factA.mp hc)
          · cases h
    · intro h
      unfold extract_abstract
      split
      · rfl
      · cases ho : openIdx t with
        | none => rfl
        | some i =>
          rcases h with h | h
          · have := factB.mpr h
            rw [ho] at this
            cases this
          · have hc : (collectedOf t).isEmpty = true := factA.mpr h
            rw [if_pos hc]
  · intro s hs
    unfold extract_abstract at hs
    split at hs
    · cases hs
    · split at hs
      · cases hs
      · split at hs
        · cases hs
        · rename_i hc
          have hXs : (⟨normalizeWS (joinSp (collectedOf t))⟩ : String) = s := by
            injection hs
          intro hemp
          rw [← hXs] at hemp
          have hnil : normalizeWS (joinSp (collectedOf t)) = [] := by
            have := congrArg String.data hemp
            simpa using this
          cases hcol : collectedOf t with
          | nil =>
            rw [hcol] at hc
            exact hc rfl
          | cons w rest =>
            have hwmem : w ∈ collectedOf t := by
              rw [hcol]
              exact List.mem_cons_self _ _
            unfold collectedOf at hwmem
            have hw2 := List.mem_filter.mp hwmem
            obtain ⟨raw, hraw, hwstrip⟩ := List.mem_map.mp hw2.1
            have hwne : w ≠ [] := by
              intro hnilw
              have hbe := hw2.2
              rw [hnilw] at hbe
              simp at hbe
            cases hwcons : w with
            | nil => exact hwne hwcons
            | cons c u =>
              have hcns : pySpace c = false :=
                strip_head_false (l := raw) (t := u) (by rw [hwstrip, hwcons])
              have hcj : c ∈ joinSp (collectedOf t) := by
                rw [hcol]
                exact mem_joinSp_head (by rw [hwcons]; exact List.mem_cons_self _ _)
              exact normalizeWS_ne_nil hcj hcns hnil

/-- Witness for C2: a heading-free document yields `none` through the first
disjunct, and an extracted abstract is a non-empty string. -/
theorem extract_none_iff_witness :
    extract_abstract "no heading here" = none ∧ ("foo" : String) ≠ "" :=
  ⟨(extract_none_iff "no heading here").1.mpr (Or.inl (by decide)),
    (extract_none_iff "## Abstract\nfoo").2 "foo" (by decide)⟩

end DocParse
